import Mathlib

/-!
Shallow embedding of the tabulated hierarchical importance sampler of the
RPV BSDF plugin (`src/plugins/src/bsdfs/rpv.cpp`).

Modelling conventions:

* Directions are represented by their spherical coordinates in the local
  shading frame, stored as exact rationals: `t` is the zenith angle in units
  of `π/2` (so `θ = t·π/2`, `t ∈ [0,2]`, and `cos θ > 0 ↔ t < 1`), and `p` is
  the azimuth in units of `2π` (so `φ = p·2π`, `p ∈ [0,1)`).  With this
  representation every quantity the plugin derives from `acos`/`cos_phi`
  (grid indices, folded azimuths) is exact rational arithmetic:
  `acos(cos θ) = θ` for `θ ∈ [0,π]`, and `acos(cos φ) = φ` for `φ ≤ π`,
  `2π − φ` otherwise, which is the `phiFold` function below.
* The density table built in the constructor evaluates the RPV reflectance
  (a transcendental expression) at the 32×32×32 grid nodes.  The table is
  abstracted as a parameter `data : ℕ → ℚ` (flat layout
  `((i·32)+j)·32+k`, exactly the `m_data` layout), and theorems quantify
  over it (with a non-negativity hypothesis where the claim assumes
  `ρ0 ≥ 0`, `g ∈ [-1,1]`).  All CDF construction and all of
  `sample`/`pdf`/`eval` after the table is built is embedded exactly.
* Out-of-range `dr::gather` reads (which are masked or undefined behaviour
  in the source) are modelled as returning 0, the value a masked drjit
  gather produces.
* Float arithmetic is modelled as exact rational arithmetic; `dr::Smallest`
  and `dr::OneMinusEpsilon` are the exact values of those float32 constants.
-/

namespace RpvSampling

/-- Sum of `f 0 + f 1 + ⋯ + f (n-1)`; the accumulation loops of the
constructor are expressed through this prefix-sum operator. -/
def sumRange (f : ℕ → ℚ) : ℕ → ℚ
  | 0 => 0
  | n + 1 => sumRange f n + f n

/-- A direction in the local shading frame: zenith `θ = t·π/2` and azimuth
`φ = p·2π`.  The plugin consumes directions only through
`cos θ`, `sin θ`, `cos φ`, `sin φ`, so this is a faithful representation of
the unit vectors of the source. -/
structure Dir where
  t : ℚ
  p : ℚ
  deriving DecidableEq

/-- Value of `acos(Frame3f::cos_phi(w))` in units of `2π`.  `cos_phi`
returns 1 at the poles (its `sin_theta ≈ 0` guard); elsewhere
`acos(cos φ)` folds `φ ∈ [0,2π)` to `min φ (2π−φ) ∈ [0,π]`. -/
def phiFold (w : Dir) : ℚ :=
  if w.t = 0 ∨ w.t = 2 then 0
  else if w.p ≤ 1/2 then w.p else 1 - w.p

/-- Fractional part, used to reduce an azimuth that overflows `2π` back
into `[0, 2π)` (a direction vector does this implicitly through
`cos φ`/`sin φ`). -/
def fract (q : ℚ) : ℚ := q - ⌊q⌋

/-- `dr::Smallest<Float>`: smallest positive normalized float32. -/
def smallestFlt : ℚ := 1 / 2 ^ 126

/-- `dr::OneMinusEpsilon<Float>`: largest float32 below 1. -/
def oneMinusEps : ℚ := 1 - 1 / 2 ^ 24

/-- `dr::clamp(sample, Smallest, OneMinusEpsilon)` applied to one
component. -/
def clampU (u : ℚ) : ℚ := max smallestFlt (min u oneMinusEps)

/-- Conditional CDF entry of slice `(x, y)` at azimuth bin `z`: the
constructor's inner loop (`accum_cond += m_data[…]; cond_cdf[…] = accum_cond`)
stores the running sum of `m_data` along the azimuth axis, so the entry is
the inclusive prefix sum up to `z`. -/
def condCdf (data : ℕ → ℚ) (x y z : ℕ) : ℚ :=
  sumRange (fun k => data ((x * 32 + y) * 32 + k)) (z + 1)

/-- The buffer `m_cond_cdf` as a function of the flat index
`l = (x·32 + y)·32 + z`. -/
def condCdfFlat (data : ℕ → ℚ) (l : ℕ) : ℚ :=
  sumRange (fun k => data ((l / 32) * 32 + k)) (l % 32 + 1)

/-- `m_marg_theta_o_cdf[y]`: the second constructor loop runs θo (`y`)
outermost and never resets its accumulator, so entry `y` holds the mass of
all cells with θo index ≤ `y`, summed over every θi bin and azimuth bin —
a marginal over the full table, not per incident bin. -/
def margThetaOCdf (data : ℕ → ℚ) (y : ℕ) : ℚ :=
  sumRange (fun yy =>
    sumRange (fun x => sumRange (fun z => data ((x * 32 + yy) * 32 + z)) 32) 32) (y + 1)

/-- `m_marg_theta_i_cdf[x]`: the first constructor loop adds the running
conditional prefix `accum_cond` (not the cell value) to its never-reset
accumulator once per cell, so entry `x` is the sum of all conditional-CDF
entries of slices with θi index ≤ `x`. -/
def margThetaICdf (data : ℕ → ℚ) (x : ℕ) : ℚ :=
  sumRange (fun xx =>
    sumRange (fun y => sumRange (fun z => condCdf data xx y z) 32) 32) (x + 1)

/-- `m_inv_normalization`: the final value of `accum_marg_theta_o`. -/
def invNormalization (data : ℕ → ℚ) : ℚ := margThetaOCdf data 31

/-- `m_normalization = 1.0 / accum_marg_theta_o` (note: the source divides
unconditionally; rational division by zero yields 0 here, where float
arithmetic would produce +∞). -/
def normalization (data : ℕ → ℚ) : ℚ := 1 / invNormalization data

/-- Total mass of slice `(x, y)` of the density table. -/
def sliceTotal (data : ℕ → ℚ) (x y : ℕ) : ℚ :=
  sumRange (fun z => data ((x * 32 + y) * 32 + z)) 32

/-- Grand total mass of the density table. -/
def grandTotal (data : ℕ → ℚ) : ℚ :=
  sumRange (fun x =>
    sumRange (fun y => sumRange (fun z => data ((x * 32 + y) * 32 + z)) 32) 32) 32

/-- `dr::gather<Float>(m_cond_cdf, l, mask)` with a non-negative index:
an in-bounds read returns the buffer entry, an out-of-bounds (masked /
undefined) read is modelled as 0, the value a masked drjit gather
returns. -/
def gatherCond (data : ℕ → ℚ) (l : ℕ) : ℚ :=
  if l < 32768 then condCdfFlat data l else 0

/-- Gather from `m_cond_cdf` at a signed index (the `pdf` path can produce
a negative index, which the source would cast to a huge `UInt32`). -/
def gatherCondZ (data : ℕ → ℚ) (i : ℤ) : ℚ :=
  if 0 ≤ i ∧ i < 32768 then gatherCond data i.toNat else 0

/-- One bisection step loop of `dr::binary_search`: at each iteration the
probe is `(start + end) / 2`; a satisfied predicate moves `start` past the
probe (capped at `end`), otherwise `end` moves down to the probe. -/
def binSearchAux (pred : ℕ → Bool) : ℕ → ℕ → ℕ → ℕ
  | 0, s, _ => s
  | n + 1, s, e =>
      if pred ((s + e) / 2) then binSearchAux pred n (min ((s + e) / 2 + 1) e) e
      else binSearchAux pred n s ((s + e) / 2)

/-- `dr::binary_search<UInt32>(start, end, pred)`: runs
`⌊log2(end − start)⌋ + 1` bisection iterations and returns the final
`start`. -/
def binSearch (pred : ℕ → Bool) (s e : ℕ) : ℕ :=
  binSearchAux pred (if s < e then Nat.log2 (e - s) + 1 else 0) s e

/-- Stage-1 index of `sample`:
`floor2int<UInt32>(acos(cosθi) / (π/2) · m_size.x())`.  No clamping is
applied by the source. -/
def idxThetaI (wi : Dir) : ℕ := Nat.floor (wi.t * 32)

/-- Stage-2 index of `sample`: the clamped `u1` is incremented by
`m_inv_normalization` (`sample.x() += m_inv_normalization`) and the global
θo marginal CDF is bisected over `[0, m_size.y() − 1]` with predicate
`m_marg_theta_o_cdf[idx] < sample.x()`. -/
def sampleIdxThetaO (data : ℕ → ℚ) (u1 : ℚ) : ℕ :=
  binSearch (fun i => decide (margThetaOCdf data i < clampU u1 + invNormalization data)) 0 31

/-- Stage-3 index of `sample`: bisection of the conditional CDF slice with
predicate `m_cond_cdf[idx + offset_theta_i + offset_theta_o] < sample.y()`. -/
def sampleIdxPhi (data : ℕ → ℚ) (offTi offTo : ℕ) (s2 : ℚ) : ℕ :=
  binSearch (fun i => decide (gatherCond data (i + offTi + offTo) < s2)) 0 31

/-- Result of `RPV::sample`: the `BSDFSample3f.wo` direction, its
`BSDFSample3f.pdf`, and the returned spectrum weight (scalar channel). -/
structure SampleResult where
  wo : Dir
  pdf : ℚ
  weight : ℚ

/-- `RPV::sample`.  `R` abstracts `eval_rpv` (the transcendental RPV
reflectance after `depolarizer`, scalar channel); all table lookups,
index computations and masking follow the source.  The returned direction
is `θo = idx_theta_o/32 · (π/2)`, `φo = idx_phi/32 · 2π + φi`, reduced
modulo `2π` (a direction vector does that reduction implicitly). -/
def sampleRpv (R : Dir → Dir → ℚ) (data : ℕ → ℚ) (wi : Dir) (u1 u2 : ℚ) :
    SampleResult :=
  let offTi := idxThetaI wi * 1024
  let idxTo := sampleIdxThetaO data u1
  let offTo := idxTo * 32
  let tO : ℚ := (idxTo : ℚ) / 32
  let s2 : ℚ := clampU u2 * gatherCond data (offTo + offTi + 31)
  let idxPhi := sampleIdxPhi data offTi offTo s2
  let cdf0 : ℚ := if 0 < idxPhi then gatherCond data (offTi + offTo + idxPhi - 1) else 0
  let cdf1 : ℚ := gatherCond data (offTi + offTo + idxPhi)
  let pO : ℚ := fract ((idxPhi : ℚ) / 32 + phiFold wi)
  let woS : Dir := ⟨tO, pO⟩
  let pdfS : ℚ := if wi.t < 1 then (cdf1 - cdf0) * normalization data else 0
  ⟨woS, pdfS, if wi.t < 1 ∧ 0 < pdfS then R wi woS else 0⟩

/-- Quantized relative-azimuth index of `RPV::pdf`:
`floor2int<UInt32>((φo − φi) / 2π · m_size.z())`, where both azimuths were
recovered as `acos(cos_phi(·)) ∈ [0, π]`.  The value is kept signed here
to expose that the source applies no wrap into `[0, 2π)`: a negative
difference floors to a negative index (which the source then casts to
`UInt32`, addressing out of range). -/
def idxPhiPdf (wi wo : Dir) : ℤ := Int.floor ((phiFold wo - phiFold wi) * 32)

/-- `RPV::pdf`. -/
def pdfRpv (data : ℕ → ℚ) (wi wo : Dir) : ℚ :=
  let idxTi : ℕ := if wi.t < 1 then Nat.floor (wi.t * 32) else 0
  let idxTo : ℕ := if wo.t < 1 then Nat.floor (wo.t * 32) else 0
  let iPhi : ℤ := idxPhiPdf wi wo
  let offset : ℤ := (idxTi : ℤ) * 1024 + (idxTo : ℤ) * 32
  let cdf0 : ℚ := if 0 < iPhi then gatherCondZ data (offset + iPhi - 1) else 0
  let cdf1 : ℚ := gatherCondZ data (offset + iPhi)
  if wi.t < 1 ∧ wo.t < 1 then (cdf1 - cdf0) * normalization data else 0

/-- `RPV::eval`: the reflectance value (`R`, abstracting `eval_rpv`) and
the `|cos θo|` factor (`absCosT`) are transcendental and abstracted; the
masking (`cos θi > 0 ∧ cos θo > 0`) is exact. -/
def evalRpv (R : Dir → Dir → ℚ) (absCosT : Dir → ℚ) (wi wo : Dir) : ℚ :=
  if wi.t < 1 ∧ wo.t < 1 then R wi wo * absCosT wo else 0

/-- Representative direction of grid cell `(j, k)`: the cell's lower edge
`θo = j/32 · (π/2)`, `φ = k/32 · 2π` — the same nodes the table builder
evaluates. -/
def cellDir (j k : ℕ) : Dir := ⟨(j : ℚ) / 32, (k : ℚ) / 32⟩

/-- Discrete full-table integral of `pdf(wi, ·)`: one term for every
(θo, φ) grid cell (the code's `pdf` is a per-cell probability mass, so the
cell weights are 1). -/
def pdfTableSum (data : ℕ → ℚ) (wi : Dir) : ℚ :=
  sumRange (fun j => sumRange (fun k => pdfRpv data wi (cellDir j k)) 32) 32

/-- Refinement reference for claim C2, following the spec's words: the
per-primary marginal CDF over θo, i.e. cumulative mass of the *selected*
θi slice only (the source has no such per-primary table). -/
def specMargSliceCdf (data : ℕ → ℚ) (xi y : ℕ) : ℚ :=
  sumRange (fun yy => sumRange (fun z => data ((xi * 32 + yy) * 32 + z)) 32) (y + 1)

/-- Linear scan for the first index (starting at `k`, `n` candidates)
satisfying `pred`; returns the index past the scan when none does. -/
def firstTrue (pred : ℕ → Bool) : ℕ → ℕ → ℕ
  | 0, k => k
  | n + 1, k => if pred k then k else firstTrue pred n (k + 1)

/-- Refinement reference for claim C2, following the spec's words:
scale the clamped `u1` by the marginal total of the selected primary
index, then pick the smallest secondary index whose cumulative marginal
value exceeds the scaled sample. -/
def specStage2Index (data : ℕ → ℚ) (xi : ℕ) (u1 : ℚ) : ℕ :=
  firstTrue
    (fun y => decide (clampU u1 * specMargSliceCdf data xi 31 < specMargSliceCdf data xi y))
    31 0

/-- Density table whose in-range cells all hold 1 (a constant positive
reflectance). -/
def onesData : ℕ → ℚ := fun l => if l < 32768 then 1 else 0

/-- Density table holding 1 in every in-range cell except the mirror pair
of azimuth cells `(θi, θo, φ) = (16, 31, 8)` and `(16, 31, 24)` (flat
indices 17384 and 17400), which hold 2.  It has the symmetries every table
the builder can produce has: `eval_rpv` depends on the relative azimuth
only through `cos φ`, so a built table satisfies
`data[i,j,k] = data[i,j,(32−k) mod 32]` (proved below for this table), and
its `i = 0` slice (normal incidence, `tan θi = sin θi = 0`) is
azimuth-constant (this table's `i = 0` slice is constant 1). -/
def ceData : ℕ → ℚ :=
  fun l => (if l < 32768 then (1 : ℚ) else 0) + (if l = 17384 then 1 else 0) +
    (if l = 17400 then 1 else 0)

/-- Oblique incidence `θi = π/4` (bin 16), `φi = π/32`: a direction whose
folded incident azimuth is the non-trivial `π/32`, so `pdf`'s
`acos(cos φ)` fold displaces the re-derived azimuth bin by
`2φi/(2π)·32 = 2` bins relative to the mirror. -/
def wiOblique : Dir := ⟨1 / 2, 1 / 64⟩

/-- Azimuth bin a φ-cell is folded to by `acos(cos φ)`:
`k ≤ 16 ↦ k`, `k > 16 ↦ 32 − k`. -/
def foldIdx (k : ℕ) : ℕ := if k ≤ 16 then k else 32 - k

/-- The mass `pdf(wi, ·)` actually aggregates when its query directions
run over the lookup grid of θi slice `i` at zero incident azimuth: row
`j` contributes cell `foldIdx k` for each azimuth bin `k` (cells above
bin 16 are mirrored down), and row `j = 0` — whose reconstructed
direction is the pole, which loses its azimuth — contributes its `φ = 0`
cell 32 times. -/
def foldedSliceMass (data : ℕ → ℚ) (i : ℕ) : ℚ :=
  sumRange (fun j =>
    sumRange (fun k => data ((i * 32 + j) * 32 + (if j = 0 then 0 else foldIdx k))) 32) 32

/-- The all-zero density table: what the builder produces when
`rho_0 = 0` (every `eval_rpv` grid sample is then 0). -/
def zeroData : ℕ → ℚ := fun _ => 0

/-- Normal incidence `wi = (0, 0, 1)`. -/
def wiNormal : Dir := ⟨0, 0⟩

theorem sumRange_congr {f g : ℕ → ℚ} {n : ℕ} (h : ∀ i, i < n → f i = g i) :
    sumRange f n = sumRange g n := by
  induction n with
  | zero => rfl
  | succ m ih =>
      simp only [sumRange, ih fun i hi => h i (Nat.lt_succ_of_lt hi),
        h m (Nat.lt_succ_self m)]

theorem sumRange_const (c : ℚ) (n : ℕ) : sumRange (fun _ => c) n = n * c := by
  induction n with
  | zero => simp [sumRange]
  | succ m ih => simp [sumRange, ih]; ring

theorem sumRange_add (f g : ℕ → ℚ) (n : ℕ) :
    sumRange (fun i => f i + g i) n = sumRange f n + sumRange g n := by
  induction n with
  | zero => simp [sumRange]
  | succ m ih => simp [sumRange, ih]; ring

theorem sumRange_nonneg {f : ℕ → ℚ} {n : ℕ} (h : ∀ i, i < n → 0 ≤ f i) :
    0 ≤ sumRange f n := by
  induction n with
  | zero => simp [sumRange]
  | succ m ih =>
      have := h m (Nat.lt_succ_self m)
      have := ih fun i hi => h i (Nat.lt_succ_of_lt hi)
      simp only [sumRange]; linarith

theorem sumRange_mono {f : ℕ → ℚ} {n m : ℕ} (hnm : n ≤ m)
    (h : ∀ i, i < m → 0 ≤ f i) : sumRange f n ≤ sumRange f m := by
  induction m with
  | zero => exact le_of_eq (by rw [Nat.le_zero.mp hnm])
  | succ k ih =>
      rcases Nat.eq_or_lt_of_le hnm with heq | hlt
      · subst heq; exact le_refl _
      · have hn : n ≤ k := Nat.lt_succ_iff.mp hlt
        have h1 := ih hn (fun i hi => h i (Nat.lt_succ_of_lt hi))
        have h2 := h k (Nat.lt_succ_self k)
        simp only [sumRange]; linarith

/-- Sum of an indicator of a single flat index over a window. -/
theorem sumRange_indicator (t base : ℕ) (c : ℚ) (n : ℕ) :
    sumRange (fun k => if base + k = t then c else 0) n =
      if base ≤ t ∧ t < base + n then c else 0 := by
  induction n with
  | zero =>
      have hx : ¬ (base ≤ t ∧ t < base) := by omega
      simp [sumRange, hx]
  | succ m ih =>
      simp only [sumRange, ih]
      by_cases h1 : base + m = t
      · have hx : ¬ (base ≤ t ∧ t < base + m) := by omega
        have hy : base ≤ t ∧ t < base + (m+1) := by omega
        simp [h1, hx, hy]
      · by_cases h2 : base ≤ t ∧ t < base + m
        · have h3 : base ≤ t ∧ t < base + (m+1) := by omega
          simp [h1, h2, h3]
        · have h3 : ¬ (base ≤ t ∧ t < base + (m+1)) := by omega
          simp [h1, h2, h3]

theorem sumRange_swap (f : ℕ → ℕ → ℚ) (n m : ℕ) :
    sumRange (fun i => sumRange (fun j => f i j) m) n =
      sumRange (fun j => sumRange (fun i => f i j) n) m := by
  induction n with
  | zero =>
      simp only [sumRange]
      rw [sumRange_congr (g := fun _ => (0:ℚ)) (fun i _ => rfl), sumRange_const]
      ring
  | succ k ih =>
      simp only [sumRange, ih, ← sumRange_add]

theorem clampU_pos (u : ℚ) : 0 < clampU u := by
  have : (0:ℚ) < smallestFlt := by norm_num [smallestFlt]
  exact lt_of_lt_of_le this (le_max_left _ _)

theorem clampU_eq_of_mem {u : ℚ} (h1 : smallestFlt ≤ u) (h2 : u ≤ oneMinusEps) :
    clampU u = u := by
  simp [clampU, min_eq_left h2, max_eq_right h1]

theorem condCdfFlat_eq (data : ℕ → ℚ) (x y z : ℕ) (hz : z < 32) :
    condCdfFlat data ((x * 32 + y) * 32 + z) = condCdf data x y z := by
  unfold condCdfFlat condCdf
  have h1 : ((x * 32 + y) * 32 + z) / 32 = x * 32 + y := by omega
  have h2 : ((x * 32 + y) * 32 + z) % 32 = z := by omega
  rw [h1, h2]

theorem binSearchAux_le (pred : ℕ → Bool) :
    ∀ n s e, s ≤ e → binSearchAux pred n s e ≤ e := by
  intro n
  induction n with
  | zero => intro s e hs; simpa [binSearchAux] using hs
  | succ k ih =>
      intro s e hs
      rw [binSearchAux]
      by_cases h : pred ((s + e) / 2) = true
      · rw [if_pos h]
        exact ih _ e (by omega)
      · rw [if_neg h]
        exact le_trans (ih s _ (by omega)) (by omega)

/-- When the predicate holds at every probe position, every iteration moves
`start` up and the search returns `end` (given enough iterations). -/
theorem binSearchAux_all_true (pred : ℕ → Bool) (e : ℕ)
    (hp : ∀ i, i ≤ e → pred i = true) :
    ∀ n s, s ≤ e → e - s < 2 ^ n → binSearchAux pred n s e = e := by
  intro n
  induction n with
  | zero =>
      intro s hs hgap
      have h1 : (2:ℕ) ^ 0 = 1 := rfl
      rw [h1] at hgap
      simp only [binSearchAux]
      omega
  | succ k ih =>
      intro s hs hgap
      have hm : (s + e) / 2 ≤ e := by omega
      rw [binSearchAux, if_pos (hp ((s + e) / 2) hm)]
      have hpow : (2:ℕ) ^ (k + 1) = 2 * 2 ^ k := by rw [pow_succ]; ring
      have hpos : 0 < (2:ℕ) ^ k := pow_pos (by norm_num) k
      apply ih
      · omega
      · rw [hpow] at hgap
        omega

theorem binSearch_all_true_31 (pred : ℕ → Bool)
    (hp : ∀ i, i ≤ 31 → pred i = true) : binSearch pred 0 31 = 31 := by
  unfold binSearch
  rw [if_pos (by norm_num)]
  have hlog : Nat.log2 (31 - 0) + 1 = 5 := by norm_num [Nat.log2]
  rw [hlog]
  exact binSearchAux_all_true pred 31 hp 5 0 (by omega) (by norm_num)

theorem margThetaOCdf_mono (data : ℕ → ℚ) (hd : ∀ l, 0 ≤ data l) {y yy : ℕ}
    (h : y ≤ yy) : margThetaOCdf data y ≤ margThetaOCdf data yy := by
  unfold margThetaOCdf
  apply sumRange_mono (by omega)
  intro i _
  apply sumRange_nonneg; intro x _
  apply sumRange_nonneg; intro z _
  exact hd _

/-- The stage-2 bisection of `sample` always returns the last θo bin: the
shifted sample `clamp(u1) + m_inv_normalization` strictly exceeds every
marginal-CDF entry, so the predicate holds at every probe. -/
theorem sampleIdxThetaO_eq_31 (data : ℕ → ℚ) (hd : ∀ l, 0 ≤ data l) (u1 : ℚ) :
    sampleIdxThetaO data u1 = 31 := by
  unfold sampleIdxThetaO
  apply binSearch_all_true_31
  intro i hi
  simp only [decide_eq_true_eq]
  have h1 : margThetaOCdf data i ≤ invNormalization data :=
    margThetaOCdf_mono data hd hi
  have h2 := clampU_pos u1
  linarith

theorem condCdfFlat_ones {l : ℕ} (hl : l < 32768) :
    condCdfFlat onesData l = ((l % 32 : ℕ) : ℚ) + 1 := by
  unfold condCdfFlat
  rw [sumRange_congr (g := fun _ => (1:ℚ))]
  · rw [sumRange_const]; push_cast; ring
  · intro k hk
    have hin : l / 32 * 32 + k < 32768 := by omega
    simp [onesData, hin]

theorem margThetaOCdf_ones {y : ℕ} (hy : y ≤ 31) :
    margThetaOCdf onesData y = ((y : ℚ) + 1) * 1024 := by
  unfold margThetaOCdf
  rw [sumRange_congr (g := fun _ => (1024:ℚ))]
  · rw [sumRange_const]; push_cast; ring
  · intro yy hyy
    rw [sumRange_congr (g := fun _ => (32:ℚ))]
    · rw [sumRange_const]; norm_num
    · intro x hx
      rw [sumRange_congr (g := fun _ => (1:ℚ))]
      · rw [sumRange_const]; norm_num
      · intro z hz
        have hin : (x * 32 + yy) * 32 + z < 32768 := by omega
        simp [onesData, hin]

theorem invNormalization_ones : invNormalization onesData = 32768 := by
  rw [invNormalization, margThetaOCdf_ones (by norm_num)]; norm_num

theorem margThetaOCdf_add (f g : ℕ → ℚ) (y : ℕ) :
    margThetaOCdf (fun l => f l + g l) y =
      margThetaOCdf f y + margThetaOCdf g y := by
  unfold margThetaOCdf
  rw [← sumRange_add]
  apply sumRange_congr
  intro yy _
  rw [← sumRange_add]
  apply sumRange_congr
  intro x _
  rw [← sumRange_add]

/-- Nested θo-marginal sum of a single-cell indicator table: it counts the
cell exactly when its θo index `t / 32 % 32` is within the running range. -/
theorem tripleSum_indicator {t y : ℕ} (ht : t < 32768) (hy : y ≤ 31) :
    margThetaOCdf (fun l => if l = t then (1:ℚ) else 0) y =
      if t / 32 % 32 ≤ y then 1 else 0 := by
  unfold margThetaOCdf
  have hstep1 : ∀ yy, yy < 32 → sumRange (fun x =>
      sumRange (fun z => if (x * 32 + yy) * 32 + z = t then (1:ℚ) else 0) 32) 32 =
      if yy = t / 32 % 32 then 1 else 0 := by
    intro yy hyy
    have hinner : ∀ x, x < 32 →
        sumRange (fun z => if (x * 32 + yy) * 32 + z = t then (1:ℚ) else 0) 32 =
        if x * 32 + yy = t / 32 then 1 else 0 := by
      intro x hx
      rw [sumRange_indicator t ((x * 32 + yy) * 32) 1 32]
      rw [if_congr (by omega : ((x * 32 + yy) * 32 ≤ t ∧ t < (x * 32 + yy) * 32 + 32)
        ↔ x * 32 + yy = t / 32) rfl rfl]
    rw [sumRange_congr (fun x hx => hinner x hx)]
    by_cases hc : yy = t / 32 % 32
    · rw [sumRange_congr (g := fun x => if 0 + x = t / 32 / 32 then (1:ℚ) else 0)]
      · rw [sumRange_indicator]
        rw [if_pos (by omega), if_pos hc]
      · intro x hx
        exact if_congr (by omega) rfl rfl
    · rw [sumRange_congr (g := fun _ => (0:ℚ))]
      · rw [sumRange_const, if_neg hc]; ring
      · intro x hx
        exact if_neg (by omega)
  rw [sumRange_congr (fun yy hyy => hstep1 yy (by omega))]
  rw [sumRange_congr (g := fun yy => if 0 + yy = t / 32 % 32 then (1:ℚ) else 0)
    (fun yy hyy => if_congr (by omega) rfl rfl)]
  rw [sumRange_indicator]
  exact if_congr (by omega) rfl rfl

theorem ceData_split : ceData = fun l =>
    (onesData l + (if l = 17384 then (1:ℚ) else 0)) + (if l = 17400 then (1:ℚ) else 0) := rfl

/-- The counterexample table has the azimuth parity of every built table:
`eval_rpv` sees the relative azimuth only through `cos φ`, so built tables
satisfy `data[i,j,k] = data[i,j,(32−k) mod 32]`; this one does too (its two
bumps sit at the mirror pair `k = 8` and `k = 24` of one slice). -/
theorem ceData_mirror {i j k : ℕ} (hi : i < 32) (hj : j < 32) (hk : k < 32) :
    ceData ((i * 32 + j) * 32 + k) = ceData ((i * 32 + j) * 32 + (32 - k) % 32) := by
  by_cases hc : i = 16 ∧ j = 31
  · obtain ⟨h1, h2⟩ := hc
    subst h1; subst h2
    interval_cases k <;> norm_num [ceData]
  · have hne : i * 32 + j ≠ 543 := by
      rcases not_and_or.mp hc with h | h <;> omega
    unfold ceData
    rw [if_pos (by omega : (i * 32 + j) * 32 + k < 32768),
      if_pos (by omega : (i * 32 + j) * 32 + (32 - k) % 32 < 32768),
      if_neg (by omega : (i * 32 + j) * 32 + k ≠ 17384),
      if_neg (by omega : (i * 32 + j) * 32 + k ≠ 17400),
      if_neg (by omega : (i * 32 + j) * 32 + (32 - k) % 32 ≠ 17384),
      if_neg (by omega : (i * 32 + j) * 32 + (32 - k) % 32 ≠ 17400)]

/-- The counterexample table's normal-incidence slice (`i = 0`) is
azimuth-constant, as it is for every built table (`tan θi = sin θi = 0`
removes all azimuth dependence from `eval_rpv`). -/
theorem ceData_slice0 {j k : ℕ} (hj : j < 32) (hk : k < 32) :
    ceData ((0 * 32 + j) * 32 + k) = 1 := by
  unfold ceData
  rw [if_pos (by omega), if_neg (by omega), if_neg (by omega)]
  norm_num

theorem margThetaOCdf_ce {y : ℕ} (hy : y ≤ 31) :
    margThetaOCdf ceData y = ((y : ℚ) + 1) * 1024 + (if 31 ≤ y then 2 else 0) := by
  rw [ceData_split, margThetaOCdf_add, margThetaOCdf_add, margThetaOCdf_ones hy,
    tripleSum_indicator (by norm_num) hy, tripleSum_indicator (by norm_num) hy]
  by_cases h : 31 ≤ y <;> simp [h] <;> ring

theorem invNormalization_ce : invNormalization ceData = 32770 := by
  rw [invNormalization, margThetaOCdf_ce (by norm_num)]
  norm_num

/-- Conditional-CDF entries of the `(θi, θo) = (16, 31)` slice of `ceData`
(flat window starting at `(16·32+31)·32 = 17376`). -/
theorem condCdf_ce_slice {z : ℕ} (hz : z < 32) :
    condCdf ceData 16 31 z =
      ((z : ℚ) + 1) + (if 8 ≤ z then 1 else 0) + (if 24 ≤ z then 1 else 0) := by
  unfold condCdf
  rw [ceData_split]
  rw [sumRange_add (f := fun k => onesData ((16 * 32 + 31) * 32 + k) +
      (if (16 * 32 + 31) * 32 + k = 17384 then (1:ℚ) else 0))
    (g := fun k => if (16 * 32 + 31) * 32 + k = 17400 then (1:ℚ) else 0)]
  rw [sumRange_add (f := fun k => onesData ((16 * 32 + 31) * 32 + k))
    (g := fun k => if (16 * 32 + 31) * 32 + k = 17384 then (1:ℚ) else 0)]
  rw [sumRange_congr (g := fun _ => (1:ℚ))
    (fun k hk => by simp [onesData]; omega)]
  rw [sumRange_const, sumRange_indicator 17384 ((16 * 32 + 31) * 32) 1 (z + 1),
    sumRange_indicator 17400 ((16 * 32 + 31) * 32) 1 (z + 1)]
  rw [if_congr (by omega : ((16 * 32 + 31) * 32 ≤ 17384 ∧
      17384 < (16 * 32 + 31) * 32 + (z + 1)) ↔ 8 ≤ z) rfl rfl,
    if_congr (by omega : ((16 * 32 + 31) * 32 ≤ 17400 ∧
      17400 < (16 * 32 + 31) * 32 + (z + 1)) ↔ 24 ≤ z) rfl rfl]
  push_cast; ring

theorem gatherCond_ce_slice {i : ℕ} (hi : i < 32) :
    gatherCond ceData (17376 + i) =
      ((i : ℚ) + 1) + (if 8 ≤ i then 1 else 0) + (if 24 ≤ i then 1 else 0) := by
  have h17376 : (17376 : ℕ) = (16 * 32 + 31) * 32 := by norm_num
  rw [gatherCond, if_pos (by omega), h17376, condCdfFlat_eq ceData 16 31 i hi,
    condCdf_ce_slice hi]

theorem gatherCond_ones {l : ℕ} (hl : l < 32768) :
    gatherCond onesData l = ((l % 32 : ℕ) : ℚ) + 1 := by
  rw [gatherCond, if_pos hl, condCdfFlat_ones hl]

theorem onesData_nonneg : ∀ l, 0 ≤ onesData l := by
  intro l; unfold onesData; split <;> norm_num

theorem ceData_nonneg : ∀ l, 0 ≤ ceData l := by
  intro l
  unfold ceData
  have h1 : (0:ℚ) ≤ if l < 32768 then (1:ℚ) else 0 := by split <;> norm_num
  have h2 : (0:ℚ) ≤ if l = 17384 then (1:ℚ) else 0 := by split <;> norm_num
  have h3 : (0:ℚ) ≤ if l = 17400 then (1:ℚ) else 0 := by split <;> norm_num
  exact add_nonneg (add_nonneg h1 h2) h3

theorem normalization_ones : normalization onesData = 1 / 32768 := by
  rw [normalization, invNormalization_ones]

theorem normalization_ce : normalization ceData = 1 / 32770 := by
  rw [normalization, invNormalization_ce]

theorem clampU_half : clampU (1 / 2) = 1 / 2 :=
  clampU_eq_of_mem (by norm_num [smallestFlt]) (by norm_num [oneMinusEps])

/-- The concrete stage-3 bisection of the counterexample run: slice
`(θi, θo) = (16, 31)` of `ceData` has conditional CDF
`z + 1 + [z ≥ 8] + [z ≥ 24]` and the scaled sample is 26; the probes
15, 23, 27, 25, 24 land on 24. -/
theorem sampleIdxPhi_ce : sampleIdxPhi ceData 16384 992 26 = 24 := by
  have hval : ∀ i, i < 32 → gatherCond ceData (i + 16384 + 992) =
      ((i : ℚ) + 1) + (if 8 ≤ i then 1 else 0) + (if 24 ≤ i then 1 else 0) := by
    intro i hi
    have h : i + 16384 + 992 = 17376 + i := by omega
    rw [h, gatherCond_ce_slice hi]
  have p15 : decide (gatherCond ceData (15 + 16384 + 992) < 26) = true := by
    simp only [hval 15 (by norm_num)]; norm_num
  have p23 : decide (gatherCond ceData (23 + 16384 + 992) < 26) = true := by
    simp only [hval 23 (by norm_num)]; norm_num
  have p27 : decide (gatherCond ceData (27 + 16384 + 992) < 26) = false := by
    simp only [hval 27 (by norm_num)]; norm_num
  have p25 : decide (gatherCond ceData (25 + 16384 + 992) < 26) = false := by
    simp only [hval 25 (by norm_num)]; norm_num
  have p24 : decide (gatherCond ceData (24 + 16384 + 992) < 26) = false := by
    simp only [hval 24 (by norm_num)]; norm_num
  unfold sampleIdxPhi binSearch
  rw [if_pos (by norm_num)]
  have hlog : Nat.log2 (31 - 0) + 1 = 5 := by norm_num [Nat.log2]
  rw [hlog]
  rw [binSearchAux, show (0 + 31) / 2 = 15 by norm_num, p15, if_pos rfl]
  rw [show min (15 + 1) 31 = 16 by norm_num]
  rw [binSearchAux, show (16 + 31) / 2 = 23 by norm_num, p23, if_pos rfl]
  rw [show min (23 + 1) 31 = 24 by norm_num]
  rw [binSearchAux, show (24 + 31) / 2 = 27 by norm_num, p27, if_neg Bool.false_ne_true]
  rw [binSearchAux, show (24 + 27) / 2 = 25 by norm_num, p25, if_neg Bool.false_ne_true]
  rw [binSearchAux, show (24 + 25) / 2 = 24 by norm_num, p24, if_neg Bool.false_ne_true]
  rfl

/-- The concrete stage-3 bisection of the uniform-table witness run: slice
totals are `z + 1`, the scaled sample is 16, and the probes land on 15. -/
theorem sampleIdxPhi_ones : sampleIdxPhi onesData 0 992 16 = 15 := by
  have hval : ∀ i, i < 32 → gatherCond onesData (i + 0 + 992) = ((i : ℚ)) + 1 := by
    intro i hi
    have h : i + 0 + 992 = 992 + i := by omega
    rw [h, gatherCond_ones (by omega)]
    congr 1
    have : (992 + i) % 32 = i := by omega
    rw [this]
  have p15 : decide (gatherCond onesData (15 + 0 + 992) < 16) = false := by
    simp only [hval 15 (by norm_num)]; norm_num
  have p7 : decide (gatherCond onesData (7 + 0 + 992) < 16) = true := by
    simp only [hval 7 (by norm_num)]; norm_num
  have p11 : decide (gatherCond onesData (11 + 0 + 992) < 16) = true := by
    simp only [hval 11 (by norm_num)]; norm_num
  have p13 : decide (gatherCond onesData (13 + 0 + 992) < 16) = true := by
    simp only [hval 13 (by norm_num)]; norm_num
  have p14 : decide (gatherCond onesData (14 + 0 + 992) < 16) = true := by
    simp only [hval 14 (by norm_num)]; norm_num
  unfold sampleIdxPhi binSearch
  rw [if_pos (by norm_num)]
  have hlog : Nat.log2 (31 - 0) + 1 = 5 := by norm_num [Nat.log2]
  rw [hlog]
  rw [binSearchAux, show (0 + 31) / 2 = 15 by norm_num, p15, if_neg Bool.false_ne_true]
  rw [binSearchAux, show (0 + 15) / 2 = 7 by norm_num, p7, if_pos rfl]
  rw [show min (7 + 1) 15 = 8 by norm_num]
  rw [binSearchAux, show (8 + 15) / 2 = 11 by norm_num, p11, if_pos rfl]
  rw [show min (11 + 1) 15 = 12 by norm_num]
  rw [binSearchAux, show (12 + 15) / 2 = 13 by norm_num, p13, if_pos rfl]
  rw [show min (13 + 1) 15 = 14 by norm_num]
  rw [binSearchAux, show (14 + 15) / 2 = 14 by norm_num, p14, if_pos rfl]
  rfl

theorem firstTrue_congr {pred pred2 : ℕ → Bool} :
    ∀ n k, (∀ i, k ≤ i → i < k + n → pred i = pred2 i) →
      firstTrue pred n k = firstTrue pred2 n k := by
  intro n
  induction n with
  | zero => intro k _; rfl
  | succ m ih =>
      intro k h
      rw [firstTrue, firstTrue, h k (le_refl k) (by omega)]
      by_cases hc : pred2 k = true
      · rw [hc]; rfl
      · rw [Bool.not_eq_true] at hc
        rw [hc]
        have hrec := ih (k + 1) fun i h1 h2 => h i (by omega) (by omega)
        simp only [hrec]

theorem specMargSliceCdf_ones {y : ℕ} (hy : y ≤ 31) :
    specMargSliceCdf onesData 0 y = ((y : ℚ) + 1) * 32 := by
  unfold specMargSliceCdf
  rw [sumRange_congr (g := fun _ => (32:ℚ))]
  · rw [sumRange_const]; push_cast; ring
  · intro yy hyy
    rw [sumRange_congr (g := fun _ => (1:ℚ))]
    · rw [sumRange_const]; norm_num
    · intro z hz
      simp only [onesData]
      rw [if_pos (by omega)]

/-- The spec's stage-2 procedure on the uniform table with `u1 = 1/2`
selects bin 16: the scaled sample is `512` and the per-slice marginal is
`(y+1)·32`. -/
theorem specStage2Index_ones : specStage2Index onesData 0 (1 / 2) = 16 := by
  unfold specStage2Index
  rw [firstTrue_congr 31 0 (fun i h1 h2 => ?_)]
  · show firstTrue (fun y => decide (16 ≤ y)) 31 0 = 16
    decide
  · show decide (clampU (1 / 2) * specMargSliceCdf onesData 0 31 < specMargSliceCdf onesData 0 i)
      = decide (16 ≤ i)
    rw [clampU_half, specMargSliceCdf_ones (by norm_num), specMargSliceCdf_ones (by omega)]
    rcases Nat.lt_or_ge i 16 with hc | hc
    · have hq : ((i : ℚ) + 1) * 32 ≤ 1 / 2 * ((31 + 1) * 32) := by
        have : (i : ℚ) ≤ 15 := by exact_mod_cast Nat.le_of_lt_succ hc
        nlinarith
      rw [decide_eq_false (by linarith), decide_eq_false (by omega)]
    · have hq : 1 / 2 * (((31 : ℚ) + 1) * 32) < ((i : ℚ) + 1) * 32 := by
        have : (16 : ℚ) ≤ (i : ℚ) := by exact_mod_cast hc
        nlinarith
      rw [decide_eq_true (by linarith), decide_eq_true hc]

theorem binSearch_le (pred : ℕ → Bool) (s e : ℕ) (h : s ≤ e) :
    binSearch pred s e ≤ e :=
  binSearchAux_le pred _ s e h

theorem idxThetaI_wiNormal : idxThetaI wiNormal = 0 := by
  norm_num [idxThetaI, wiNormal]

theorem phiFold_wiNormal : phiFold wiNormal = 0 := by
  norm_num [phiFold, wiNormal]

theorem clampU_1317 : clampU (13 / 17) = 13 / 17 :=
  clampU_eq_of_mem (by norm_num [smallestFlt]) (by norm_num [oneMinusEps])

theorem idxThetaI_wiOblique : idxThetaI wiOblique = 16 := by
  norm_num [idxThetaI, wiOblique]

theorem phiFold_wiOblique : phiFold wiOblique = 1 / 64 := by
  norm_num [phiFold, wiOblique]

theorem gatherCond_ce_17407 : gatherCond ceData 17407 = 34 := by
  have h := gatherCond_ce_slice (i := 31) (by norm_num)
  norm_num at h
  exact h

theorem gatherCond_ce_17399 : gatherCond ceData 17399 = 25 := by
  have h := gatherCond_ce_slice (i := 23) (by norm_num)
  norm_num at h
  exact h

theorem gatherCond_ce_17400 : gatherCond ceData 17400 = 27 := by
  have h := gatherCond_ce_slice (i := 24) (by norm_num)
  norm_num at h
  exact h

theorem gatherCond_ce_17382 : gatherCond ceData 17382 = 7 := by
  have h := gatherCond_ce_slice (i := 6) (by norm_num)
  norm_num at h
  exact h

theorem gatherCond_ce_17383 : gatherCond ceData 17383 = 8 := by
  have h := gatherCond_ce_slice (i := 7) (by norm_num)
  norm_num at h
  exact h

/-- Full evaluation of the counterexample sampling run: at
`θi = π/4, φi = π/32` with `u = (1/2, 13/17)` on `ceData`, `sample` lands
in θo bin 31 and azimuth bin 24 of θi slice 16, returns
`φo = 24/32·2π + π/32` (`p = 49/64`), and reports the bin-24 mass
`2/32770 = 1/16385`. -/
theorem sample_ce_eval :
    sampleRpv (fun _ _ => 0) ceData wiOblique (1 / 2) (13 / 17) =
      ⟨⟨31 / 32, 49 / 64⟩, 1 / 16385, 0⟩ := by
  simp only [sampleRpv, idxThetaI_wiOblique, phiFold_wiOblique,
    sampleIdxThetaO_eq_31 ceData ceData_nonneg, clampU_1317]
  norm_num [gatherCond_ce_17407]
  rw [sampleIdxPhi_ce]
  norm_num [gatherCond_ce_17399, gatherCond_ce_17400, normalization_ce, fract, wiOblique]

/-- `pdf` at the direction the counterexample run returned: the outgoing
azimuth `49/64·2π ∈ (π, 2π)` is folded through `acos(cos φ)` to
`15/64·2π`, the incident fold `π/32` is subtracted, and the result
quantizes to bin 7 — not the sampled bin 24, nor its mirror 8 (the fold
displaces the bin by `2φi`) — so the bin-7 mass (1, not 2) is read. -/
theorem pdf_ce_eval : pdfRpv ceData wiOblique ⟨31 / 32, 49 / 64⟩ = 1 / 32770 := by
  have h7 : idxPhiPdf wiOblique ⟨31 / 32, 49 / 64⟩ = 7 := by
    norm_num [idxPhiPdf, phiFold, wiOblique]
  simp only [pdfRpv, h7]
  have ht0 : Int.toNat 17383 = 17383 := rfl
  have ht1 : Int.toNat 17382 = 17382 := rfl
  norm_num [wiOblique, gatherCondZ, ht0, ht1, gatherCond_ce_17382,
    gatherCond_ce_17383, normalization_ce]

theorem gatherCond_ones_1023 : gatherCond onesData 1023 = 32 := by
  rw [gatherCond_ones (by norm_num)]
  norm_num

/-- Full evaluation of the uniform-table witness run: `wi = (0,0,1)`,
`u = (1/2, 1/2)` lands in θo bin 31 and azimuth bin 15. -/
theorem sample_ones_eval :
    sampleRpv (fun _ _ => 0) onesData wiNormal (1 / 2) (1 / 2) =
      ⟨⟨31 / 32, 15 / 32⟩, 1 / 32768, 0⟩ := by
  simp only [sampleRpv, idxThetaI_wiNormal, phiFold_wiNormal,
    sampleIdxThetaO_eq_31 onesData onesData_nonneg, clampU_half]
  norm_num [gatherCond_ones_1023]
  rw [sampleIdxPhi_ones]
  have h1006 : gatherCond onesData 1006 = 15 := by
    rw [gatherCond_ones (by norm_num)]; norm_num
  have h1007 : gatherCond onesData 1007 = 16 := by
    rw [gatherCond_ones (by norm_num)]; norm_num
  norm_num [h1006, h1007, normalization_ones, fract, wiNormal]

theorem margThetaOCdf_zero (y : ℕ) : margThetaOCdf zeroData y = 0 := by
  show sumRange (fun _ => sumRange (fun _ => sumRange (fun _ => (0:ℚ)) 32) 32) (y + 1) = 0
  simp [sumRange_const]

theorem gatherCond_zero (l : ℕ) : gatherCond zeroData l = 0 := by
  unfold gatherCond condCdfFlat
  split
  · show sumRange (fun _ => (0:ℚ)) (l % 32 + 1) = 0
    rw [sumRange_const]
    ring
  · rfl

theorem phiFold_nonneg {w : Dir} (h1 : 0 ≤ w.p) (h2 : w.p < 1) :
    0 ≤ phiFold w := by
  unfold phiFold
  split
  · exact le_refl 0
  · split <;> linarith

theorem phiFold_le_half {w : Dir} (h1 : 0 ≤ w.p) (h2 : w.p < 1) :
    phiFold w ≤ 1 / 2 := by
  unfold phiFold
  split
  · norm_num
  · split <;> linarith

/-- C3: in `sample` the clamped `u1` is shifted upward by the un-normalized
grand total before the bisection of the global θo marginal CDF, so the
search predicate holds at every probe and the selected outgoing-zenith bin
is always the last one (31), for every incident direction and every uniform
pair: the returned direction has zenith exactly `31/32 · (π/2)`
(`wo.t = 31/32`).  The hypothesis abstracts the parameter preconditions
`ρ0 ≥ 0`, `g ∈ [−1,1]` under which every density entry is non-negative. -/
theorem rpv_c3_sample_always_last_theta_bin (R : Dir → Dir → ℚ) (data : ℕ → ℚ)
    (hd : ∀ l, 0 ≤ data l) (wi : Dir) (u1 u2 : ℚ) :
    sampleIdxThetaO data u1 = 31 ∧
      (sampleRpv R data wi u1 u2).wo.t = 31 / 32 := by
  refine ⟨sampleIdxThetaO_eq_31 data hd u1, ?_⟩
  simp only [sampleRpv, sampleIdxThetaO_eq_31 data hd u1]
  norm_num

theorem rpv_c3_witness :
    (∀ l, 0 ≤ onesData l) ∧
      (sampleRpv (fun _ _ => 0) onesData wiNormal (1 / 2) (1 / 2)).wo.t = 31 / 32 :=
  ⟨onesData_nonneg,
   (rpv_c3_sample_always_last_theta_bin (fun _ _ => 0) onesData onesData_nonneg
      wiNormal (1 / 2) (1 / 2)).2⟩

/-- C6: REFUTED as stated — `sample` applies no clamp to its stage-1 index:
at exactly grazing incidence (`θi = π/2`, i.e. `cos θi = 0`, `t = 1`) the
index is `⌊1 · 32⌋ = 32`, outside `[0, 31]`. -/
theorem rpv_c6_counterexample : ¬ (idxThetaI ⟨1, 0⟩ ≤ 31) := by
  norm_num [idxThetaI]

/-- C6 (amended): the stage-1 index is the *unclamped*
`⌊θi/(π/2) · 32⌋`: it lies in `[0, 31]` exactly for `cos θi > 0`
(`t < 1`); grazing or backface incidence (`1 ≤ t ≤ 2`) produces
out-of-table indices in `[32, 64]`. -/
theorem rpv_c6_amended (wi : Dir) (h0 : 0 ≤ wi.t) (h2 : wi.t ≤ 2) :
    (wi.t < 1 → idxThetaI wi ≤ 31) ∧
      (1 ≤ wi.t → 32 ≤ idxThetaI wi ∧ idxThetaI wi ≤ 64) := by
  constructor
  · intro h
    have hlt : idxThetaI wi < 32 := by
      unfold idxThetaI
      rw [Nat.floor_lt (by positivity)]
      push_cast
      linarith
    omega
  · intro h
    constructor
    · exact Nat.le_floor (by push_cast; linarith)
    · have hlt : idxThetaI wi < 65 := by
        unfold idxThetaI
        rw [Nat.floor_lt (by positivity)]
        push_cast
        linarith
      omega

theorem rpv_c6_witness :
    (0 : ℚ) ≤ ((⟨1 / 2, 0⟩ : Dir)).t ∧ idxThetaI ⟨1 / 2, 0⟩ ≤ 31 :=
  ⟨by norm_num,
   (rpv_c6_amended ⟨1 / 2, 0⟩ (by norm_num) (by norm_num)).1 (by norm_num)⟩

/-- C7: REFUTED as stated — `pdf` applies no wrap to `φo − φi` before
quantizing: with `φi = π/2` (folded to `π/2`) and `φo = 0` the difference
is `−π/2` and the quantized azimuth index is `−8`, out of range. -/
theorem rpv_c7_counterexample :
    idxPhiPdf ⟨1 / 2, 1 / 4⟩ ⟨1 / 2, 0⟩ = -8 ∧
      ¬ (0 ≤ idxPhiPdf ⟨1 / 2, 1 / 4⟩ ⟨1 / 2, 0⟩) := by
  norm_num [idxPhiPdf, phiFold]

/-- C7 (amended): `pdf` recovers both azimuths folded through
`acos(cos φ) ∈ [0, π]` and subtracts them with *no* wrap into `[0, 2π)`:
the quantized index is in range — and then only in `[0, 16]`, the upper
azimuth bins being unreachable — exactly when the folded outgoing azimuth
is at least the folded incident azimuth; otherwise it is negative
(out of range after the source's `UInt32` cast). -/
theorem rpv_c7_amended (wi wo : Dir) (hp1 : 0 ≤ wi.p) (hp2 : wi.p < 1)
    (hq1 : 0 ≤ wo.p) (hq2 : wo.p < 1) :
    (phiFold wi ≤ phiFold wo → 0 ≤ idxPhiPdf wi wo ∧ idxPhiPdf wi wo ≤ 16) ∧
      (phiFold wo < phiFold wi → idxPhiPdf wi wo < 0) := by
  have hb1 := phiFold_nonneg hp1 hp2
  have hb2 := phiFold_le_half hp1 hp2
  have hb3 := phiFold_nonneg hq1 hq2
  have hb4 := phiFold_le_half hq1 hq2
  constructor
  · intro h
    constructor
    · exact Int.le_floor.mpr (by push_cast; nlinarith)
    · calc idxPhiPdf wi wo ≤ ⌊(16:ℚ)⌋ := Int.floor_le_floor (by nlinarith)
        _ = 16 := by norm_num
  · intro h
    unfold idxPhiPdf
    rw [Int.floor_lt]
    push_cast
    nlinarith

theorem rpv_c7_witness :
    phiFold ⟨1 / 2, 0⟩ ≤ phiFold ⟨1 / 2, 1 / 4⟩ ∧
      0 ≤ idxPhiPdf ⟨1 / 2, 0⟩ ⟨1 / 2, 1 / 4⟩ ∧
      idxPhiPdf ⟨1 / 2, 0⟩ ⟨1 / 2, 1 / 4⟩ ≤ 16 :=
  ⟨by norm_num [phiFold],
   (rpv_c7_amended ⟨1 / 2, 0⟩ ⟨1 / 2, 1 / 4⟩ (by norm_num) (by norm_num)
      (by norm_num) (by norm_num)).1 (by norm_num [phiFold])⟩

/-- C9: for every `(θi, θo)` slice pair, the conditional CDF sequence along
the innermost azimuth axis is non-decreasing, given non-negative density
entries (which the stated preconditions `ρ0 ≥ 0`, `g ∈ [−1,1]`
guarantee for the RPV density). -/
theorem rpv_c9_cond_cdf_monotone (data : ℕ → ℚ) (hd : ∀ l, 0 ≤ data l)
    (x y : ℕ) {z zz : ℕ} (h : z ≤ zz) :
    condCdf data x y z ≤ condCdf data x y zz := by
  unfold condCdf
  exact sumRange_mono (by omega) (fun i _ => hd _)

theorem rpv_c9_witness :
    (∀ l, 0 ≤ onesData l) ∧ condCdf onesData 0 0 0 ≤ condCdf onesData 0 0 1 :=
  ⟨onesData_nonneg,
   rpv_c9_cond_cdf_monotone onesData onesData_nonneg 0 0 (by norm_num)⟩

/-- C10: one-sidedness: whenever `cos θi ≤ 0` (`t ≥ 1`), `sample` returns
zero pdf and zero spectral weight and `eval`/`pdf` return 0 for every `wo`;
`eval` and `pdf` also return 0 whenever `cos θo ≤ 0`. -/
theorem rpv_c10_one_sided (R : Dir → Dir → ℚ) (absCosT : Dir → ℚ)
    (data : ℕ → ℚ) (wi wo : Dir) (u1 u2 : ℚ) :
    (1 ≤ wi.t →
      (sampleRpv R data wi u1 u2).pdf = 0 ∧
      (sampleRpv R data wi u1 u2).weight = 0 ∧
      evalRpv R absCosT wi wo = 0 ∧ pdfRpv data wi wo = 0) ∧
    (1 ≤ wo.t → evalRpv R absCosT wi wo = 0 ∧ pdfRpv data wi wo = 0) := by
  constructor
  · intro h
    have hnot : ¬ (wi.t < 1) := not_lt.mpr h
    refine ⟨?_, ?_, ?_, ?_⟩
    · simp only [sampleRpv]
      rw [if_neg hnot]
    · simp only [sampleRpv]
      rw [if_neg (by tauto)]
    · unfold evalRpv
      rw [if_neg (by tauto)]
    · unfold pdfRpv
      rw [if_neg (by tauto)]
  · intro h
    have hnot : ¬ (wo.t < 1) := not_lt.mpr h
    constructor
    · unfold evalRpv
      rw [if_neg (by tauto)]
    · unfold pdfRpv
      rw [if_neg (by tauto)]

theorem rpv_c10_witness :
    (1 : ℚ) ≤ ((⟨3 / 2, 0⟩ : Dir)).t ∧
      (sampleRpv (fun _ _ => 1) onesData ⟨3 / 2, 0⟩ (1 / 2) (1 / 2)).pdf = 0 ∧
      evalRpv (fun _ _ => 1) (fun _ => 1 / 2) ⟨3 / 2, 0⟩ ⟨1 / 4, 0⟩ = 0 ∧
      pdfRpv onesData ⟨3 / 2, 0⟩ ⟨1 / 4, 0⟩ = 0 := by
  have h := (rpv_c10_one_sided (fun _ _ => 1) (fun _ => 1 / 2) onesData
    ⟨3 / 2, 0⟩ ⟨1 / 4, 0⟩ (1 / 2) (1 / 2)).1 (by norm_num)
  exact ⟨by norm_num, h.1, h.2.2.1, h.2.2.2⟩

/-- C4: with `rho_0 = 0` every density-table entry is 0, and the
constructor performs *no* zero-mass detection: it unconditionally computes
`m_normalization = 1.0 / 0` (`+∞` in float arithmetic) and `sample` has no
cosine-hemisphere fallback — its reported pdf is identically 0 in exact
arithmetic (`(0 − 0)·(1/0)`; in float arithmetic `0 · ∞ = NaN`) and its
weight is 0, never the valid positive finite pdf the spec requires. -/
theorem rpv_c4_no_zero_mass_fallback (R : Dir → Dir → ℚ) (wi : Dir) (u1 u2 : ℚ) :
    invNormalization zeroData = 0 ∧
      (sampleRpv R zeroData wi u1 u2).pdf = 0 ∧
      (sampleRpv R zeroData wi u1 u2).weight = 0 := by
  refine ⟨margThetaOCdf_zero 31, ?_, ?_⟩
  · simp only [sampleRpv, gatherCond_zero]
    norm_num
  · simp only [sampleRpv, gatherCond_zero]
    norm_num

/-- C2: REFUTED as stated — on the uniform table with `u1 = 1/2` at normal
incidence (primary index 0), the spec's stage-2 procedure (scale `u1` by
the selected primary slice's marginal total, search that slice's marginal
CDF for the smallest entry exceeding it) selects bin 16, but the code
selects bin 31: it *adds* the un-normalized grand total to the clamped
`u1` and bisects the global θo marginal. -/
theorem rpv_c2_counterexample :
    sampleIdxThetaO onesData (1 / 2) = 31 ∧
      specStage2Index onesData (idxThetaI wiNormal) (1 / 2) = 16 ∧
      sampleIdxThetaO onesData (1 / 2) ≠
        specStage2Index onesData (idxThetaI wiNormal) (1 / 2) := by
  rw [idxThetaI_wiNormal, specStage2Index_ones,
    sampleIdxThetaO_eq_31 onesData onesData_nonneg]
  norm_num

/-- C2 (amended): stage 2 *adds* the un-normalized grand total to the
clamped `u1` (`sample.x() += m_inv_normalization`) and bisects the global
θo marginal CDF (marginalized over all incident bins, not the selected
one); the shifted sample exceeds every CDF entry, so the selected
secondary index is always the last bin 31, independent of `u1` and of the
primary index. -/
theorem rpv_c2_amended (data : ℕ → ℚ) (hd : ∀ l, 0 ≤ data l) (u1 : ℚ) :
    margThetaOCdf data 31 < clampU u1 + invNormalization data ∧
      sampleIdxThetaO data u1 = 31 := by
  refine ⟨?_, sampleIdxThetaO_eq_31 data hd u1⟩
  have := clampU_pos u1
  unfold invNormalization
  linarith

theorem rpv_c2_witness :
    (∀ l, 0 ≤ onesData l) ∧ sampleIdxThetaO onesData (1 / 2) = 31 :=
  ⟨onesData_nonneg, (rpv_c2_amended onesData onesData_nonneg (1 / 2)).2⟩

theorem sampleIdxPhi_le_31 (data : ℕ → ℚ) (offTi offTo : ℕ) (s2 : ℚ) :
    sampleIdxPhi data offTi offTo s2 ≤ 31 :=
  binSearch_le _ 0 31 (by norm_num)

/-- Components of a `sample` run at normal incidence on a table with
non-negative entries: the θi offset is 0, the θo bin is 31 (offset 992),
and the result is determined by the stage-3 index. -/
theorem sample_wiNormal_eval (R : Dir → Dir → ℚ) (data : ℕ → ℚ)
    (hd : ∀ l, 0 ≤ data l) (u1 u2 : ℚ) :
    (sampleRpv R data wiNormal u1 u2).wo =
        ⟨31 / 32,
         ((sampleIdxPhi data 0 992 (clampU u2 * gatherCond data 1023) : ℕ) : ℚ) / 32⟩ ∧
      (sampleRpv R data wiNormal u1 u2).pdf =
        (gatherCond data
            (992 + sampleIdxPhi data 0 992 (clampU u2 * gatherCond data 1023)) -
          (if 0 < sampleIdxPhi data 0 992 (clampU u2 * gatherCond data 1023)
           then gatherCond data
              (992 + sampleIdxPhi data 0 992 (clampU u2 * gatherCond data 1023) - 1)
           else 0)) * normalization data := by
  have hN31 : sampleIdxPhi data 0 992 (clampU u2 * gatherCond data 1023) ≤ 31 :=
    sampleIdxPhi_le_31 data 0 992 _
  have hfl : (⌊((sampleIdxPhi data 0 992 (clampU u2 * gatherCond data 1023) : ℕ) : ℚ) / 32⌋ : ℤ) = 0 := by
    rw [Int.floor_eq_zero_iff, Set.mem_Ico]
    constructor
    · positivity
    · have h31 : ((sampleIdxPhi data 0 992 (clampU u2 * gatherCond data 1023) : ℕ) : ℚ) ≤ 31 := by
        exact_mod_cast hN31
      linarith
  simp only [sampleRpv, idxThetaI_wiNormal, phiFold_wiNormal,
    sampleIdxThetaO_eq_31 data hd]
  norm_num [fract, hfl, wiNormal]

/-- C1: REFUTED as stated — a run at `wi = (θi = π/4, φi = π/32)`
(`cos θi > 0`) with uniforms `(1/2, 13/17) ∈ [0,1)²` on `ceData` — a table
with the azimuth parity and φ-constant normal-incidence slice of every
built table — samples azimuth bin 24 and reports the bin-24 density
`2/32770`, but `pdf` at the returned direction recovers the azimuth as
`acos(cos φo) − acos(cos φi)`, which the fold displaces by `2φi` past the
mirror bin, quantizes to bin 7, and returns that bin's density `1/32770`. -/
theorem rpv_c1_counterexample :
    wiOblique.t < 1 ∧
      pdfRpv ceData wiOblique
          (sampleRpv (fun _ _ => 0) ceData wiOblique (1 / 2) (13 / 17)).wo ≠
        (sampleRpv (fun _ _ => 0) ceData wiOblique (1 / 2) (13 / 17)).pdf := by
  refine ⟨by norm_num [wiOblique], ?_⟩
  rw [sample_ce_eval]
  show pdfRpv ceData wiOblique ⟨31 / 32, 49 / 64⟩ ≠ 1 / 16385
  rw [pdf_ce_eval]
  norm_num

/-- C1 (amended): `pdf` reproduces the density reported by `sample` only
when the re-quantization is unaffected by the `acos(cos φ)` fold — e.g. at
normal incidence whenever the sampled relative azimuth lies in the lower
half-turn (`wo.p ≤ 1/2`, i.e. azimuth bin ≤ 16); then `pdf` re-derives the
same grid indices and reads the same conditional-CDF difference scaled by
the same normalization constant. -/
theorem rpv_c1_sample_pdf_agree_low_azimuth (R : Dir → Dir → ℚ) (data : ℕ → ℚ)
    (hd : ∀ l, 0 ≤ data l) (u1 u2 : ℚ)
    (hlow : (sampleRpv R data wiNormal u1 u2).wo.p ≤ 1 / 2) :
    pdfRpv data wiNormal (sampleRpv R data wiNormal u1 u2).wo =
      (sampleRpv R data wiNormal u1 u2).pdf := by
  obtain ⟨hwo, hpdf⟩ := sample_wiNormal_eval R data hd u1 u2
  set N := sampleIdxPhi data 0 992 (clampU u2 * gatherCond data 1023) with hNdef
  have hN31 : N ≤ 31 := sampleIdxPhi_le_31 data 0 992 _
  rw [hwo] at hlow
  have hNq : ((N : ℕ) : ℚ) / 32 ≤ 1 / 2 := hlow
  have hN16 : N ≤ 16 := by
    have h16 : ((N : ℕ) : ℚ) ≤ 16 := by linarith
    exact_mod_cast h16
  rw [hwo, hpdf]
  have hfold : phiFold ⟨31 / 32, ((N : ℕ) : ℚ) / 32⟩ = ((N : ℕ) : ℚ) / 32 := by
    unfold phiFold
    rw [if_neg (by norm_num), if_pos hNq]
  have hPhiPdf : idxPhiPdf wiNormal ⟨31 / 32, ((N : ℕ) : ℚ) / 32⟩ = (N : ℤ) := by
    unfold idxPhiPdf
    rw [hfold, phiFold_wiNormal, sub_zero,
      div_mul_cancel₀ _ (by norm_num : (32:ℚ) ≠ 0), Int.floor_natCast]
  have hg1 : gatherCondZ data (992 + (N : ℤ)) = gatherCond data (992 + N) := by
    rw [gatherCondZ, if_pos (by constructor <;> omega)]
    have harg : Int.toNat (992 + (N : ℤ)) = 992 + N := by omega
    rw [harg]
  have hg0 : 0 < N → gatherCondZ data (992 + (N : ℤ) - 1) = gatherCond data (991 + N) := by
    intro hpos
    rw [gatherCondZ, if_pos (by constructor <;> omega)]
    have harg : Int.toNat (992 + (N : ℤ) - 1) = 991 + N := by omega
    rw [harg]
  simp only [pdfRpv, hPhiPdf]
  norm_num [wiNormal]
  left
  rw [hg1]
  by_cases hc : 0 < N
  · rw [if_pos hc, if_pos hc, hg0 hc]
  · rw [if_neg hc, if_neg hc]

theorem rpv_c1_witness :
    (∀ l, 0 ≤ onesData l) ∧
      (sampleRpv (fun _ _ => 0) onesData wiNormal (1 / 2) (1 / 2)).wo.p ≤ 1 / 2 ∧
      pdfRpv onesData wiNormal
          (sampleRpv (fun _ _ => 0) onesData wiNormal (1 / 2) (1 / 2)).wo =
        (sampleRpv (fun _ _ => 0) onesData wiNormal (1 / 2) (1 / 2)).pdf := by
  have hlow : (sampleRpv (fun _ _ => 0) onesData wiNormal (1 / 2) (1 / 2)).wo.p ≤ 1 / 2 := by
    rw [sample_ones_eval]
    norm_num
  exact ⟨onesData_nonneg, hlow,
    rpv_c1_sample_pdf_agree_low_azimuth (fun _ _ => 0) onesData onesData_nonneg
      (1 / 2) (1 / 2) hlow⟩

theorem sumRange_succ_ones : sumRange (fun z => ((z : ℚ) + 1)) 32 = 528 := by
  norm_num [sumRange]

theorem condCdf_ones {x y z : ℕ} (hx : x < 32) (hy : y < 32) (hz : z < 32) :
    condCdf onesData x y z = (z : ℚ) + 1 := by
  unfold condCdf
  rw [sumRange_congr (g := fun _ => (1:ℚ))]
  · rw [sumRange_const]; push_cast; ring
  · intro k hk
    simp only [onesData]
    rw [if_pos (by omega)]

theorem margThetaICdf_ones : margThetaICdf onesData 31 = 540672 := by
  unfold margThetaICdf
  rw [sumRange_congr (g := fun _ => (16896:ℚ))]
  · rw [sumRange_const]; norm_num
  · intro xx hxx
    rw [sumRange_congr (g := fun _ => (528:ℚ))]
    · rw [sumRange_const]; norm_num
    · intro y hy
      rw [sumRange_congr (g := fun z => ((z : ℚ) + 1))
        (fun z hz => condCdf_ones (by omega) (by omega) hz), sumRange_succ_ones]

theorem grandTotal_ones : grandTotal onesData = 32768 := by
  unfold grandTotal
  rw [sumRange_congr (g := fun _ => (1024:ℚ))]
  · rw [sumRange_const]; norm_num
  · intro x hx
    rw [sumRange_congr (g := fun _ => (32:ℚ))]
    · rw [sumRange_const]; norm_num
    · intro y hy
      rw [sumRange_congr (g := fun _ => (1:ℚ))]
      · rw [sumRange_const]; norm_num
      · intro z hz
        simp only [onesData]
        rw [if_pos (by omega)]

/-- C8: REFUTED as stated — the conditional slices and the θo marginal do
end in their slice totals, but the θi marginal accumulates the *running
conditional prefix sums* (`accum_marg_theta_i += accum_cond` sits inside
the azimuth loop), so its last entry is `Σ (32 − z)·data[x,y,z]`, not the
grand total: on the uniform table it is 540672 while the grand total is
32768. -/
theorem rpv_c8_counterexample :
    margThetaICdf onesData 31 = 540672 ∧ grandTotal onesData = 32768 ∧
      margThetaICdf onesData 31 ≠ grandTotal onesData := by
  rw [margThetaICdf_ones, grandTotal_ones]
  norm_num

/-- C8 (amended): the last entry of each conditional-CDF slice equals that
slice's total density, and the last entry of the θo marginal equals the
grand total mass (whose reciprocal is the normalization constant); the θi
marginal, however, accumulates running conditional prefixes and its last
entry does not equal the grand total (for the uniform table it is
540672 ≠ 32768). -/
theorem rpv_c8_amended (data : ℕ → ℚ) :
    (∀ x y, condCdf data x y 31 = sliceTotal data x y) ∧
      margThetaOCdf data 31 = grandTotal data ∧
      invNormalization data = grandTotal data ∧
      margThetaICdf onesData 31 ≠ grandTotal onesData := by
  refine ⟨fun x y => rfl, ?_, ?_, ?_⟩
  · unfold margThetaOCdf grandTotal
    exact sumRange_swap
      (fun yy x => sumRange (fun z => data ((x * 32 + yy) * 32 + z)) 32) 32 32
  · unfold invNormalization margThetaOCdf grandTotal
    exact sumRange_swap
      (fun yy x => sumRange (fun z => data ((x * 32 + yy) * 32 + z)) 32) 32 32
  · rw [margThetaICdf_ones, grandTotal_ones]
    norm_num

theorem sumRange_diff (f : ℕ → ℚ) (n : ℕ) :
    sumRange f (n + 1) - sumRange f n = f n := by
  rw [sumRange]
  ring

theorem sumRange_mul (f : ℕ → ℚ) (c : ℚ) (n : ℕ) :
    sumRange (fun i => f i * c) n = sumRange f n * c := by
  induction n with
  | zero => simp [sumRange]
  | succ m ih => simp [sumRange, ih]; ring

/-- The conditional-CDF difference `pdf` computes for an in-range cell
`(i, j, M)` is exactly that cell's density entry (prefix sums telescope),
for every table. -/
theorem cdf_diff_eval (data : ℕ → ℚ) {i j M : ℕ} (hi : i < 32) (hj : j < 32)
    (hM : M ≤ 31) :
    gatherCondZ data ((i : ℤ) * 1024 + (j : ℤ) * 32 + (M : ℤ)) -
      (if 0 < M then
        gatherCondZ data ((i : ℤ) * 1024 + (j : ℤ) * 32 + (M : ℤ) - 1) else 0) =
      data ((i * 32 + j) * 32 + M) := by
  have hflat : ((i : ℤ) * 1024 + (j : ℤ) * 32 + (M : ℤ)).toNat =
      (i * 32 + j) * 32 + M := by omega
  have h1 : gatherCondZ data ((i:ℤ) * 1024 + (j:ℤ) * 32 + (M:ℤ)) = condCdf data i j M := by
    rw [gatherCondZ, if_pos (by constructor <;> omega), gatherCond,
      if_pos (by omega), hflat, condCdfFlat_eq data i j M (by omega)]
  by_cases hM0 : 0 < M
  · have hflat0 : ((i : ℤ) * 1024 + (j : ℤ) * 32 + (M : ℤ) - 1).toNat =
        (i * 32 + j) * 32 + (M - 1) := by omega
    have h0 : gatherCondZ data ((i:ℤ) * 1024 + (j:ℤ) * 32 + (M:ℤ) - 1) =
        condCdf data i j (M - 1) := by
      rw [gatherCondZ, if_pos (by constructor <;> omega), gatherCond,
        if_pos (by omega), hflat0, condCdfFlat_eq data i j (M - 1) (by omega)]
    rw [h1, if_pos hM0, h0]
    unfold condCdf
    have hsucc : M - 1 + 1 = M := by omega
    rw [hsucc]
    exact sumRange_diff (fun z => data ((i * 32 + j) * 32 + z)) M
  · have hMz : M = 0 := by omega
    subst hMz
    rw [h1, if_neg (by omega)]
    unfold condCdf
    simp [sumRange]

theorem cellDir_t_ne {j : ℕ} (hj0 : j ≠ 0) (hj : j < 32) :
    ¬ (((j:ℚ))/32 = 0 ∨ ((j:ℚ))/32 = 2) := by
  rintro (h | h)
  · rw [div_eq_zero_iff] at h
    rcases h with h | h
    · exact hj0 (by exact_mod_cast h)
    · norm_num at h
  · rw [div_eq_iff (by norm_num : (32:ℚ) ≠ 0)] at h
    have h64 : (j:ℚ) = 64 := by linarith
    have : j = 64 := by exact_mod_cast h64
    omega

theorem idxPhiPdf_cell_pole (wi : Dir) (hw : phiFold wi = 0) {k : ℕ} :
    idxPhiPdf wi (cellDir 0 k) = 0 := by
  unfold idxPhiPdf
  rw [hw]
  have hz : phiFold (cellDir 0 k) = 0 := by
    simp only [phiFold, cellDir]
    rw [if_pos (by left; norm_num)]
  rw [hz]
  norm_num

theorem idxPhiPdf_cell_low (wi : Dir) (hw : phiFold wi = 0) {j k : ℕ}
    (hj0 : j ≠ 0) (hj : j < 32) (hk16 : k ≤ 16) :
    idxPhiPdf wi (cellDir j k) = (k : ℤ) := by
  have hcond : ((k:ℚ))/32 ≤ 1/2 := by
    rw [div_le_iff₀ (by norm_num : (0:ℚ) < 32)]
    have hc : (k:ℚ) ≤ 16 := by exact_mod_cast hk16
    linarith
  have hfold : phiFold (cellDir j k) = (k:ℚ)/32 := by
    simp only [phiFold, cellDir]
    rw [if_neg (cellDir_t_ne hj0 hj), if_pos hcond]
  unfold idxPhiPdf
  rw [hfold, hw, sub_zero,
    div_mul_cancel₀ _ (by norm_num : (32:ℚ) ≠ 0), Int.floor_natCast]

theorem idxPhiPdf_cell_high (wi : Dir) (hw : phiFold wi = 0) {j k : ℕ}
    (hj0 : j ≠ 0) (hj : j < 32) (hk : k < 32) (hk16 : 16 < k) :
    idxPhiPdf wi (cellDir j k) = ((32 - k : ℕ) : ℤ) := by
  have hcond : ¬ (((k:ℚ))/32 ≤ 1/2) := by
    rw [not_le, lt_div_iff₀ (by norm_num : (0:ℚ) < 32)]
    have hc : (17:ℚ) ≤ (k:ℚ) := by exact_mod_cast (by omega : 17 ≤ k)
    linarith
  have hfold : phiFold (cellDir j k) = 1 - (k:ℚ)/32 := by
    simp only [phiFold, cellDir]
    rw [if_neg (cellDir_t_ne hj0 hj), if_neg hcond]
  unfold idxPhiPdf
  rw [hfold, hw, sub_zero]
  have hcast : (1 - (k:ℚ)/32) * 32 = ((32 - k : ℕ) : ℚ) := by
    push_cast [Nat.cast_sub (by omega : k ≤ 32)]
    field_simp
  rw [hcast, Int.floor_natCast]

theorem idxThetaI_lt {wi : Dir} (h0 : 0 ≤ wi.t) (h1 : wi.t < 1) :
    idxThetaI wi < 32 := by
  unfold idxThetaI
  rw [Nat.floor_lt (mul_nonneg h0 (by norm_num))]
  push_cast
  linarith

/-- Value of `pdf` at lookup-grid cell `(j, k)` for any table and any
incident direction with `cos θi > 0` and zero folded incident azimuth:
the density entry of the azimuth-folded cell, scaled by the normalization
constant. -/
theorem pdf_cell_eval (data : ℕ → ℚ) (wi : Dir) {M j k : ℕ} (h0 : 0 ≤ wi.t)
    (h1 : wi.t < 1) (hw : phiFold wi = 0) (hj : j < 32) (hk : k < 32)
    (hM : M = if j = 0 then 0 else foldIdx k) :
    pdfRpv data wi (cellDir j k) =
      data ((idxThetaI wi * 32 + j) * 32 + M) * normalization data := by
  have hM16 : M ≤ 16 := by
    subst hM
    unfold foldIdx
    split
    · omega
    · split <;> omega
  have hMphi : idxPhiPdf wi (cellDir j k) = (M : ℤ) := by
    subst hM
    by_cases hj0 : j = 0
    · subst hj0
      rw [if_pos rfl]
      exact_mod_cast idxPhiPdf_cell_pole wi hw
    · rw [if_neg hj0]
      unfold foldIdx
      by_cases hk16 : k ≤ 16
      · rw [if_pos hk16]
        exact idxPhiPdf_cell_low wi hw hj0 hj hk16
      · rw [if_neg hk16]
        exact idxPhiPdf_cell_high wi hw hj0 hj hk (by omega)
  have hTi : idxThetaI wi < 32 := idxThetaI_lt h0 h1
  have hwt : ((j:ℚ))/32 < 1 := by
    rw [div_lt_one (by norm_num)]
    exact_mod_cast hj
  have hTo : Nat.floor ((j:ℚ)/32 * 32) = j := by
    rw [div_mul_cancel₀ _ (by norm_num : (32:ℚ) ≠ 0), Nat.floor_natCast]
  simp only [cellDir] at hMphi
  simp only [pdfRpv, cellDir, idxThetaI] at hTi ⊢
  norm_num [hwt, hTo, h1, hMphi]
  left
  exact cdf_diff_eval data hTi hj (by omega)

theorem pdf_ones_cell {j k : ℕ} (hj : j < 32) (hk : k < 32) :
    pdfRpv onesData wiNormal (cellDir j k) = 1 / 32768 := by
  rw [pdf_cell_eval onesData wiNormal (by norm_num [wiNormal]) (by norm_num [wiNormal])
    phiFold_wiNormal hj hk rfl, normalization_ones]
  have hM16 : (if j = 0 then 0 else foldIdx k) ≤ 16 := by
    unfold foldIdx
    split
    · omega
    · split <;> omega
  have hin : (idxThetaI wiNormal * 32 + j) * 32 + (if j = 0 then 0 else foldIdx k) < 32768 := by
    have := idxThetaI_wiNormal
    omega
  rw [show onesData ((idxThetaI wiNormal * 32 + j) * 32 + (if j = 0 then 0 else foldIdx k)) = 1
    from by simp only [onesData]; rw [if_pos hin]]
  norm_num

theorem pdfTableSum_ones : pdfTableSum onesData wiNormal = 1 / 32 := by
  unfold pdfTableSum
  have hrow : ∀ j, j < 32 →
      sumRange (fun k => pdfRpv onesData wiNormal (cellDir j k)) 32 = 1 / 1024 := by
    intro j hj
    rw [sumRange_congr (g := fun _ => (1:ℚ)/32768)
      (fun k hk => pdf_ones_cell hj hk), sumRange_const]
    norm_num
  rw [sumRange_congr (g := fun _ => (1:ℚ)/1024) hrow, sumRange_const]
  norm_num

/-- C5: REFUTED as stated — the code's `pdf` is a per-cell probability mass
normalized by the *grand* total over all incident bins, so summing it over
the full (θo, φ) table for a fixed `wi` yields the selected θi slice's
share of the total mass, not ≈ 1: on the uniform table at normal incidence
the sum is exactly `1/32`. -/
theorem rpv_c5_counterexample :
    pdfTableSum onesData wiNormal = 1 / 32 ∧
      ¬ (|pdfTableSum onesData wiNormal - 1| ≤ 1 / 2) := by
  rw [pdfTableSum_ones]
  refine ⟨rfl, ?_⟩
  rw [show (1:ℚ)/32 - 1 = -(31/32) by norm_num, abs_neg,
    abs_of_nonneg (by norm_num : (0:ℚ) ≤ 31/32)]
  norm_num

/-- C5 (amended): for every density table and every incident direction
with `cos θi > 0` and zero folded incident azimuth
(`acos(cos φi) = 0`, e.g. normal incidence or `φi = 0`), the full-table
sum of `pdf(wi, ·)` equals the azimuth-folded mass of the selected θi
slice multiplied by the normalization constant (the reciprocal of the
grand total over *all* incident bins) — about `1/Nθi` for near-uniform
tables and exactly `1/32` on the uniform table — reaching ≈ 1 only when
all table mass lies in that folded slice. -/
theorem rpv_c5_amended (data : ℕ → ℚ) (wi : Dir) (h0 : 0 ≤ wi.t) (h1 : wi.t < 1)
    (hw : phiFold wi = 0) :
    pdfTableSum data wi = foldedSliceMass data (idxThetaI wi) * normalization data := by
  unfold pdfTableSum foldedSliceMass
  have hrow : ∀ j, j < 32 →
      sumRange (fun k => pdfRpv data wi (cellDir j k)) 32 =
      sumRange (fun k =>
        data ((idxThetaI wi * 32 + j) * 32 + (if j = 0 then 0 else foldIdx k))) 32 *
        normalization data := by
    intro j hj
    rw [← sumRange_mul]
    exact sumRange_congr (fun k hk => pdf_cell_eval data wi h0 h1 hw hj hk rfl)
  rw [sumRange_congr (g := fun j => sumRange (fun k =>
      data ((idxThetaI wi * 32 + j) * 32 + (if j = 0 then 0 else foldIdx k))) 32 *
      normalization data) hrow, sumRange_mul]

theorem rpv_c5_witness :
    (0 : ℚ) ≤ wiNormal.t ∧ wiNormal.t < 1 ∧ phiFold wiNormal = 0 ∧
      pdfTableSum onesData wiNormal =
        foldedSliceMass onesData (idxThetaI wiNormal) * normalization onesData :=
  ⟨by norm_num [wiNormal], by norm_num [wiNormal], phiFold_wiNormal,
   rpv_c5_amended onesData wiNormal (by norm_num [wiNormal]) (by norm_num [wiNormal])
     phiFold_wiNormal⟩

end RpvSampling

